import Mathlib

/-!
Verification of the record-batch codec, log-compaction engine, configuration
store, partition log and configuration-string expansion of the tansu broker.

The definitions are a shallow embedding of the Rust sources:
machine integers become `Int` (with explicit byte truncation where the wire
encoding needs it), byte buffers become `List Nat`, fallible operations
return `Option`.
-/

set_option maxRecDepth 100000

namespace Tansu

/-- Byte strings (`bytes::Bytes` in the source) as lists of byte values. -/
abbrev Bytes := List Nat

/-- A record header: optional key and value octets
(src/tansu-sans-io/src/record/header.rs, `Header`). -/
structure RecordHeader where
  key : Option Bytes
  value : Option Bytes
deriving DecidableEq, Repr

/-- A structured record of an inflated batch
(`Record` of src/tansu-sans-io/src/record, as described by §3 of the spec:
`offset_delta`, `timestamp_delta`, optional key and value, headers). -/
structure Record where
  offsetDelta : Int
  timestampDelta : Int
  key : Option Bytes
  value : Option Bytes
  headers : List RecordHeader
deriving DecidableEq, Repr

/-- An inflated batch (src/tansu-sans-io/src/record/inflated.rs, `Batch`). -/
structure Batch where
  baseOffset : Int
  batchLength : Int
  partitionLeaderEpoch : Int
  magic : Int
  crc : Nat
  attributes : Int
  lastOffsetDelta : Int
  baseTimestamp : Int
  maxTimestamp : Int
  producerId : Int
  producerEpoch : Int
  baseSequence : Int
  records : List Record
deriving DecidableEq, Repr

/-- The batch builder (src/tansu-sans-io/src/record/inflated.rs, `Builder`).
The source stores `record::Builder` values; converting a `Record` to its
builder and back preserves all fields, so the embedding stores the records
directly. -/
structure Builder where
  baseOffset : Int
  partitionLeaderEpoch : Int
  magic : Int
  attributes : Int
  lastOffsetDelta : Int
  baseTimestamp : Int
  maxTimestamp : Int
  producerId : Int
  producerEpoch : Int
  baseSequence : Int
  records : List Record
deriving DecidableEq, Repr

/-- Result of `Batch::compact`: the compacted batch and the number of
records dropped (src/tansu-sans-io/src/record/inflated.rs, `Compaction`). -/
structure Compaction where
  batch : Batch
  records : Nat
deriving DecidableEq, Repr

/-! ### Wire encoding

Modelled from the spec: the primitive codec (§4.1: zig-zag varints,
fixed-width big-endian integers, nullable length-prefixed octets) and the
record layout of §3/§6.  The encoder itself (`Encoder`, `ByteSize` of the
record module) is not under src/; the byte layout is pinned by the encoded
vector of `tests::batch_decode` in src/tansu-sans-io/src/record/inflated.rs. -/

/-- Little-endian base-128 encoding of an unsigned varint; ten groups of
seven bits suffice for any 64-bit value. -/
def uvarintAux : Nat → Nat → List Nat
  | 0, n => [n % 128]
  | fuel + 1, n => if n < 128 then [n] else (n % 128 + 128) :: uvarintAux fuel (n / 128)

/-- Unsigned varint encoding of a natural number. -/
def uvarint (n : Nat) : List Nat := uvarintAux 10 n

/-- Zig-zag mapping of a signed integer onto the naturals. -/
def zigzag (n : Int) : Nat := if 0 ≤ n then 2 * n.toNat else 2 * (-n).toNat - 1

/-- Signed varint: zig-zag followed by base-128 groups. -/
def varint (n : Int) : List Nat := uvarint (zigzag n)

/-- Fixed-width big-endian two's-complement encoding of an integer. -/
def beBytes (width : Nat) (n : Int) : List Nat :=
  (List.range width).map fun i =>
    (n % (2 : Int) ^ (8 * width)).toNat / 2 ^ (8 * (width - 1 - i)) % 256

/-- Nullable octets: varint length `-1` for null, else varint length and
the raw bytes. -/
def encodeOctets : Option Bytes → List Nat
  | none => varint (-1)
  | some b => varint (Int.ofNat b.length) ++ b

/-- A header is its key octets followed by its value octets. -/
def encodeHeader (h : RecordHeader) : List Nat :=
  encodeOctets h.key ++ encodeOctets h.value

/-- The body of an encoded record: attributes byte, timestamp delta,
offset delta, key, value, header count and headers. -/
def encodeRecordBody (r : Record) : List Nat :=
  [0] ++ varint r.timestampDelta ++ varint r.offsetDelta ++
    encodeOctets r.key ++ encodeOctets r.value ++
    varint (Int.ofNat r.headers.length) ++ (r.headers.map encodeHeader).flatten

/-- An encoded record: varint byte length of the body, then the body. -/
def encodeRecord (r : Record) : List Nat :=
  varint (Int.ofNat (encodeRecordBody r).length) ++ encodeRecordBody r

/-- The record sequence: fixed 32-bit big-endian count, then the records. -/
def encodeRecords (rs : List Record) : List Nat :=
  beBytes 4 (Int.ofNat rs.length) ++ (rs.map encodeRecord).flatten

/-! ### CRC-32C (Castagnoli)

Spec §3: `crc` is CRC-32C over `attributes..records`; reflected polynomial
`0x82F63B78`. -/

/-- One bit step of the reflected CRC-32C computation. -/
def crcStep (c : Nat) : Nat :=
  if c % 2 = 1 then c / 2 ^^^ 0x82F63B78 else c / 2

/-- Fold one byte into the CRC accumulator: xor, then eight bit steps. -/
def crcByte (c b : Nat) : Nat :=
  crcStep (crcStep (crcStep (crcStep (crcStep (crcStep (crcStep (crcStep
    (c ^^^ b % 256))))))))

/-- CRC-32C of a byte sequence. -/
def crc32c (data : List Nat) : Nat :=
  data.foldl crcByte 0xFFFFFFFF ^^^ 0xFFFFFFFF

/-! ### Builder (src/tansu-sans-io/src/record/inflated.rs) -/

/-- The bytes covered by the batch CRC: `attributes` through `records`
(`Builder::crc` serializes exactly these fields in this order). -/
def batchBody (b : Builder) : List Nat :=
  beBytes 2 b.attributes ++ beBytes 4 b.lastOffsetDelta ++
    beBytes 8 b.baseTimestamp ++ beBytes 8 b.maxTimestamp ++
    beBytes 8 b.producerId ++ beBytes 2 b.producerEpoch ++
    beBytes 4 b.baseSequence ++ encodeRecords b.records

/-- Source `Builder::size_in_bytes`: partition leader epoch (4) + magic (1) +
crc (4) + attributes (2) + last offset delta (4) + timestamps (8 + 8) +
producer id (8) + producer epoch (2) + base sequence (4) + records. -/
def sizeInBytes (b : Builder) : Nat :=
  4 + 1 + 4 + 2 + 4 + 8 + 8 + 8 + 2 + 4 + (encodeRecords b.records).length

/-- Source `Builder::build`: compute `batch_length` (failing when it exceeds
`i32::MAX`), recompute the CRC, and assemble the batch. -/
def build (b : Builder) : Option Batch :=
  if sizeInBytes b < 2 ^ 31 then
    some
      { baseOffset := b.baseOffset
        batchLength := Int.ofNat (sizeInBytes b)
        partitionLeaderEpoch := b.partitionLeaderEpoch
        magic := b.magic
        crc := crc32c (batchBody b)
        attributes := b.attributes
        lastOffsetDelta := b.lastOffsetDelta
        baseTimestamp := b.baseTimestamp
        maxTimestamp := b.maxTimestamp
        producerId := b.producerId
        producerEpoch := b.producerEpoch
        baseSequence := b.baseSequence
        records := b.records }
  else none

/-- Source `From<Batch> for Builder`: copy every field except `batch_length` and
`crc`, which the builder recomputes. -/
def intoBuilder (b : Batch) : Builder :=
  { baseOffset := b.baseOffset
    partitionLeaderEpoch := b.partitionLeaderEpoch
    magic := b.magic
    attributes := b.attributes
    lastOffsetDelta := b.lastOffsetDelta
    baseTimestamp := b.baseTimestamp
    maxTimestamp := b.maxTimestamp
    producerId := b.producerId
    producerEpoch := b.producerEpoch
    baseSequence := b.baseSequence
    records := b.records }

/-- The full encoding of a batch: `base_offset`, `batch_length`,
`partition_leader_epoch`, `magic`, `crc`, then the CRC-covered body. -/
def encodeBatch (b : Batch) : List Nat :=
  beBytes 8 b.baseOffset ++ beBytes 4 b.batchLength ++
    beBytes 4 b.partitionLeaderEpoch ++ beBytes 1 b.magic ++
    beBytes 4 (Int.ofNat b.crc) ++ batchBody (intoBuilder b)

/-! ### Compaction (src/tansu-sans-io/src/record/inflated.rs, `Batch::compact`) -/

/-- Insertion (`BTreeMap::insert`) on an association list: replace the value when the
key is present (reporting `true`, the `is_some()` of the source), append
otherwise. -/
def assocInsert (m : List (Bytes × Int)) (k : Bytes) (v : Int) :
    List (Bytes × Int) × Bool :=
  match m with
  | [] => ([(k, v)], false)
  | (k0, v0) :: rest =>
    if k0 = k then ((k0, v) :: rest, true)
    else
      let r := assocInsert rest k v
      ((k0, v0) :: r.1, r.2)

/-- The scanning loop of `Batch::compact`: walk the records in order,
counting records whose key is in `head` and records whose key was already
seen, while remembering the latest `offset_delta` per key. -/
def compactScan (head : List Bytes) :
    List Record → List (Bytes × Int) → Nat → List (Bytes × Int) × Nat
  | [], m, c => (m, c)
  | r :: rs, m, c =>
    match r.key with
    | none => compactScan head rs m c
    | some k =>
      if k ∈ head then compactScan head rs m (c + 1)
      else
        let ins := assocInsert m k r.offsetDelta
        compactScan head rs ins.1 (if ins.2 then c + 1 else c)

/-- Source `Batch::compact`: when the scan dropped nothing the batch is returned
unchanged; otherwise only records whose `offset_delta` is a remembered
latest delta are retained and the batch is rebuilt. -/
def compact (b : Batch) (head : List Bytes) : Option Compaction :=
  let scan := compactScan head b.records [] 0
  if 0 < scan.2 then
    (build (intoBuilder
        { b with records :=
            b.records.filter fun r => r.offsetDelta ∈ scan.1.map Prod.snd })).map
      fun batch => { batch := batch, records := scan.2 }
  else some { batch := b, records := scan.2 }

/-! ### Helpers for reasoning about `compact` -/

/-- Lookup in an association list (`BTreeMap::get`). -/
def alookup : List (Bytes × Int) → Bytes → Option Int
  | [], _ => none
  | (k0, v) :: rest, k => if k0 = k then some v else alookup rest k

/-- The keys of the keyed records of a batch, in record order. -/
def keysOf (rs : List Record) : List Bytes := rs.filterMap Record.key

/-- The last record of a list carrying a given key, when one exists. -/
def lastKeyRec (k : Bytes) : List Record → Option Record
  | [] => none
  | r :: rs =>
    match lastKeyRec k rs with
    | some s => some s
    | none => if r.key = some k then some r else none

end Tansu

namespace TansuConfig

/-- Modelled from the spec: §4.5, the per-topic configuration resource
store of the storage backends (the backends themselves are not under
src/; only the test src/tansu-broker/tests/describe_configs.rs is).
A topic's configuration is a key to optional-value map. -/
structure TopicConfigState where
  configs : List (String × Option String)
deriving DecidableEq, Repr

/-- Modelled from the spec: the incremental alter operations of §4.5
exercised by the scenario, `Set(k,v)` and `Delete(k)`. -/
inductive OpType
  | set
  | delete
deriving DecidableEq, Repr

/-- Configuration resource types (`ConfigResource` on the wire). -/
inductive ConfigResource
  | topic
  | broker
deriving DecidableEq, Repr

/-- Configuration source labels (`ConfigSource` on the wire). -/
inductive ConfigSource
  | defaultConfig
  | topicConfig
deriving DecidableEq, Repr

/-- Wire error codes used by the configuration scenario; `none` is the
success code `ErrorCode::None`. -/
inductive ErrorCode
  | none
  | unknown
deriving DecidableEq, Repr

/-- One alteration of `incremental_alter_resource`
(`AlterableConfig` on the wire). -/
structure AlterableConfig where
  name : String
  configOperation : OpType
  value : Option String
deriving DecidableEq, Repr

/-- The resource argument of `incremental_alter_resource`
(`AlterConfigsResource` on the wire). -/
structure AlterConfigsResource where
  resourceType : ConfigResource
  resourceName : String
  configs : List AlterableConfig
deriving DecidableEq, Repr

/-- The response of `incremental_alter_resource`: an error code with the
resource type and name echoed back. -/
structure AlterResponse where
  errorCode : ErrorCode
  resourceType : ConfigResource
  resourceName : String
deriving DecidableEq, Repr

/-- One entry of a `describe_configs` result
(`DescribeConfigsResourceResult` on the wire). -/
structure DescribeEntry where
  name : String
  value : Option String
  readOnly : Bool
  configSource : ConfigSource
  isSensitive : Bool
  synonyms : List String
deriving DecidableEq, Repr

/-- Modelled from the spec: `create_topic` installs the supplied
configuration map. -/
def createTopic (configs : List (String × Option String)) : TopicConfigState :=
  { configs := configs }

/-- Upsert into the configuration map, preserving the position of an
existing key. -/
def upsert (m : List (String × Option String)) (k : String) (v : Option String) :
    List (String × Option String) :=
  match m with
  | [] => [(k, v)]
  | (k0, v0) :: rest =>
    if k0 = k then (k0, v) :: rest else (k0, v0) :: upsert rest k v

/-- Modelled from the spec: apply one alteration — `Set(k,v)` upserts,
`Delete(k)` removes the key. -/
def applyOp (m : List (String × Option String)) (a : AlterableConfig) :
    List (String × Option String) :=
  match a.configOperation with
  | .set => upsert m a.name a.value
  | .delete => m.filter fun p => p.1 ≠ a.name

/-- Modelled from the spec: `incremental_alter_resource` applies the
alterations in order and answers with `ErrorCode::None`, echoing the
resource type and name. -/
def incrementalAlterResource (st : TopicConfigState) (res : AlterConfigsResource) :
    TopicConfigState × AlterResponse :=
  ({ configs := res.configs.foldl applyOp st.configs },
    { errorCode := .none, resourceType := res.resourceType,
      resourceName := res.resourceName })

/-- Modelled from the spec: `describe_configs` reports each stored entry
with `read_only = false`, `is_sensitive = false`, no synonyms, and — as
§4.5 records of the source's observable behaviour — the source label
`DefaultConfig`. -/
def describeConfigs (st : TopicConfigState) : List DescribeEntry :=
  st.configs.map fun p =>
    { name := p.1, value := p.2, readOnly := false,
      configSource := .defaultConfig, isSensitive := false, synonyms := [] }

end TansuConfig

namespace TansuLog

/-- Modelled from the spec: §4.4, the offset bookkeeping of a partition
log (the storage backends are not under src/; only the test
src/tansu-storage/tests/pg_producer.rs is).  On a single node the
high-watermark equals `next_offset`. -/
structure PartitionLog where
  logStartOffset : Int
  nextOffset : Int
deriving DecidableEq, Repr

/-- A `list_offsets` request: `Earliest` or `Latest`. -/
inductive ListOffsetRequest
  | earliest
  | latest
deriving DecidableEq, Repr

/-- A `list_offsets` response: error code and offset. -/
structure ListOffsetResponse where
  errorCode : TansuConfig.ErrorCode
  offset : Option Int
deriving DecidableEq, Repr

/-- Modelled from the spec: `Earliest → log_start_offset`,
`Latest → HWM` (which is `next_offset` on a single node), with error
code `None`. -/
def listOffsets (p : PartitionLog) : ListOffsetRequest → ListOffsetResponse
  | .earliest => { errorCode := .none, offset := some p.logStartOffset }
  | .latest => { errorCode := .none, offset := some p.nextOffset }

/-- Modelled from the spec: a non-transactional `produce` assigns
`base_offset = next_offset` and commits by moving
`next_offset += records.len()`; the assigned offset is returned. -/
def produce (p : PartitionLog) (b : Tansu.Batch) : Int × PartitionLog :=
  (p.nextOffset,
    { p with nextOffset := p.nextOffset + Int.ofNat b.records.length })

/-- A freshly created topic partition: empty log, both watermarks zero. -/
def freshPartition : PartitionLog := { logStartOffset := 0, nextOffset := 0 }

end TansuLog

namespace TansuEnv

/-- The dollar character of the expansion syntax. -/
def dollar : Char := '$'

/-- The opening brace of the expansion syntax. -/
def lbrace : Char := Char.ofNat 123

/-- The closing brace of the expansion syntax. -/
def rbrace : Char := Char.ofNat 125

/-- Environment lookup (`HashMap::get` of `VarRep`). -/
def lookupEnv : List (List Char × List Char) → List Char → Option (List Char)
  | [], _ => none
  | (k, v) :: rest, n => if k = n then some v else lookupEnv rest n

/-- Try to match the pattern of `VarRep::replace` at the head of the
input: a dollar, an opening brace, one or more characters other than a
closing brace (matched greedily), then a closing brace.  Returns the
variable name and the remaining input on success
(src/tansu-server/src/lib.rs, the regex of `VarRep::replace`). -/
def matchVarAt : List Char → Option (List Char × List Char)
  | d :: b :: rest =>
    if d = dollar ∧ b = lbrace then
      let name := rest.takeWhile fun x => x ≠ rbrace
      match rest.dropWhile fun x => x ≠ rbrace with
      | _ :: after => if name.isEmpty then none else some (name, after)
      | [] => none
    else none
  | _ => none

/-- The leftmost match of the expansion pattern: the text before the
match, the variable name, and the text after the match. -/
def findVar : List Char → Option (List Char × List Char × List Char)
  | [] => none
  | c :: rest =>
    match matchVarAt (c :: rest) with
    | some (name, after) => some ([], name, after)
    | none => (findVar rest).map fun p => (c :: p.1, p.2.1, p.2.2)

/-- Source `VarRep::replace`: `Regex::replace` rewrites only the leftmost match,
substituting the variable's value — or nothing, when the variable is
unbound (`Replacer::replace_append` of src/tansu-server/src/lib.rs). -/
def varRepReplace (env : List (List Char × List Char)) (s : List Char) : List Char :=
  match findVar s with
  | none => s
  | some (p, name, after) => p ++ (lookupEnv env name).getD [] ++ after

/-- Source `EnvVarExp::from_str`: expand variables, then parse the resulting
string into the target type (src/tansu-server/src/lib.rs). -/
def envVarExpFromStr {α : Type} (parse : List Char → Option α)
    (env : List (List Char × List Char)) (s : List Char) : Option α :=
  parse (varRepReplace env s)

end TansuEnv

namespace TansuVersion

/-- A member entry of a join-group response
(`JoinGroupResponseMember` on the wire). -/
structure JoinGroupResponseMember where
  memberId : String
  groupInstanceId : Option String
  metadata : List Nat
deriving DecidableEq, Repr

/-- The body of a join-group response (`JoinGroupResponse`, api key 11). -/
structure JoinGroupResponse where
  throttleTimeMs : Option Int
  errorCode : Int
  generationId : Int
  protocolType : Option String
  protocolName : Option String
  leader : String
  skipAssignment : Option Bool
  memberId : String
  members : Option (List JoinGroupResponseMember)
deriving DecidableEq, Repr

/-- A partition entry of an offset-fetch response topic. -/
structure OffsetFetchResponsePartition where
  partitionIndex : Int
  committedOffset : Int
  committedLeaderEpoch : Option Int
  metadata : Option String
  errorCode : Int
deriving DecidableEq, Repr

/-- A topic entry of an offset-fetch response (versions up to 7). -/
structure OffsetFetchResponseTopic where
  name : String
  partitions : Option (List OffsetFetchResponsePartition)
deriving DecidableEq, Repr

/-- A group entry of an offset-fetch response (versions 8 and later). -/
structure OffsetFetchResponseGroup where
  groupId : String
  topics : Option (List OffsetFetchResponseTopic)
  errorCode : Int
deriving DecidableEq, Repr

/-- The body of an offset-fetch response (`OffsetFetchResponse`,
api key 9). -/
structure OffsetFetchResponse where
  throttleTimeMs : Option Int
  topics : Option (List OffsetFetchResponseTopic)
  errorCode : Option Int
  groups : Option (List OffsetFetchResponseGroup)
deriving DecidableEq, Repr

/-- A response body, as dispatched on the api key. -/
inductive Body
  | joinGroup (r : JoinGroupResponse)
  | offsetFetch (r : OffsetFetchResponse)
deriving DecidableEq, Repr

/-- Modelled from the spec: the frame layer's per-field version gating
for join-group members — `group_instance_id` is valid from version 5. -/
def gateMember (v : Nat) (m : JoinGroupResponseMember) : JoinGroupResponseMember :=
  { m with groupInstanceId := if 5 ≤ v then m.groupInstanceId else none }

/-- Modelled from the spec: §6's message-metadata table restricted to
`JoinGroupResponse` — `throttle_time_ms` from version 2, `protocol_type`
from version 7, `skip_assignment` from version 9; the remaining fields
are valid at every version.  A field outside its version range comes
back as `None` after a frame round-trip. -/
def gateJoinGroup (v : Nat) (r : JoinGroupResponse) : JoinGroupResponse :=
  { throttleTimeMs := if 2 ≤ v then r.throttleTimeMs else none
    errorCode := r.errorCode
    generationId := r.generationId
    protocolType := if 7 ≤ v then r.protocolType else none
    protocolName := r.protocolName
    leader := r.leader
    skipAssignment := if 9 ≤ v then r.skipAssignment else none
    memberId := r.memberId
    members := r.members.map fun ms => ms.map (gateMember v) }

/-- Modelled from the spec: the message-metadata table restricted to
`OffsetFetchResponse` — `throttle_time_ms` from version 3, `topics` up
to version 7, `error_code` from version 2 up to version 7, `groups` from
version 8. -/
def gateOffsetFetch (v : Nat) (r : OffsetFetchResponse) : OffsetFetchResponse :=
  { throttleTimeMs := if 3 ≤ v then r.throttleTimeMs else none
    topics := if v ≤ 7 then r.topics else none
    errorCode := if 2 ≤ v ∧ v ≤ 7 then r.errorCode else none
    groups := if 8 ≤ v then r.groups else none }

/-- Modelled from the spec: encoding a response body with
`Frame::response` at an api key and version and decoding it again with
`Frame::response_from_bytes` yields the body with every field outside
its version range replaced by `None`; a body framed under the wrong api
key fails. -/
def frameRoundtrip (apiKey v : Nat) : Body → Option Body
  | .joinGroup r => if apiKey = 11 then some (.joinGroup (gateJoinGroup v r)) else none
  | .offsetFetch r => if apiKey = 9 then some (.offsetFetch (gateOffsetFetch v r)) else none

end TansuVersion

namespace Tansu

/-! ### Concrete inputs from the source's tests -/

/-- The key bytes `"k0"` .. `"k6"` of the compaction tests. -/
def kBytes (i : Nat) : Bytes := [107, 48 + i]

/-- The value bytes `"v0"` .. `"v11"` of the compaction tests. -/
def vBytes (i : Nat) : Bytes :=
  if i < 10 then [118, 48 + i] else [118, 49, 48 + (i - 10)]

/-- A record of the compaction tests: offset and timestamp delta `d`,
key `k{ki}`, value `v{vi}`, no headers. -/
def testRecord (d ki vi : Nat) : Record :=
  { offsetDelta := Int.ofNat d, timestampDelta := Int.ofNat d,
    key := some (kBytes ki), value := some (vBytes vi), headers := [] }

/-- The builder of `tests::compaction` and
`tests::compaction_with_key_in_head_of_log`: base offset 98789, base
timestamp 1721978771334, eleven keyed records with offset deltas 0..10. -/
def exS2Builder : Builder :=
  { baseOffset := 98789, partitionLeaderEpoch := -1, magic := 2,
    attributes := 0, lastOffsetDelta := 10, baseTimestamp := 1721978771334,
    maxTimestamp := 1721978771344, producerId := -1, producerEpoch := 0,
    baseSequence := 0,
    records :=
      [testRecord 0 1 1, testRecord 1 2 2, testRecord 2 1 3, testRecord 3 1 4,
       testRecord 4 3 5, testRecord 5 2 6, testRecord 6 4 7, testRecord 7 5 8,
       testRecord 8 5 9, testRecord 9 2 10, testRecord 10 6 11] }

/-- The builder of `tests::batch`: a single record with value
`[100, 101, 102]` and the header fields of scenario S1. -/
def exS1Builder : Builder :=
  { baseOffset := 0, partitionLeaderEpoch := -1, magic := 2, attributes := 0,
    lastOffsetDelta := 0, baseTimestamp := 1707058170165,
    maxTimestamp := 1707058170165, producerId := 1, producerEpoch := 0,
    baseSequence := 1,
    records := [{ offsetDelta := 0, timestampDelta := 0, key := none,
                  value := some [100, 101, 102], headers := [] }] }

/-- A keyed record with key `[1]`, offset delta 0. -/
def exRecA : Record :=
  { offsetDelta := 0, timestampDelta := 0, key := some [1],
    value := some [10], headers := [] }

/-- A keyed record with key `[1]`, offset delta 1: a newer write of the
same key as `exRecA`. -/
def exRecB : Record :=
  { offsetDelta := 1, timestampDelta := 1, key := some [1],
    value := some [11], headers := [] }

/-- A null-keyed record with offset delta 2. -/
def exRecNull : Record :=
  { offsetDelta := 2, timestampDelta := 2, key := none,
    value := some [12], headers := [] }

/-- A batch holding a duplicated key followed by a null-keyed record. -/
def exDupBatch : Batch :=
  { baseOffset := 0, batchLength := 0, partitionLeaderEpoch := -1,
    magic := 2, crc := 0, attributes := 0, lastOffsetDelta := 2,
    baseTimestamp := 0, maxTimestamp := 0, producerId := -1,
    producerEpoch := 0, baseSequence := 0,
    records := [exRecA, exRecB, exRecNull] }

/-- A keyed record with key `[2]`, offset delta 1. -/
def exRecC : Record :=
  { offsetDelta := 1, timestampDelta := 1, key := some [2],
    value := some [13], headers := [] }

/-- A batch with two distinct keys and no duplicates: compaction drops
nothing here. -/
def exDistinctBatch : Batch :=
  { baseOffset := 5, batchLength := 7, partitionLeaderEpoch := -1,
    magic := 2, crc := 9, attributes := 0, lastOffsetDelta := 1,
    baseTimestamp := 3, maxTimestamp := 4, producerId := -1,
    producerEpoch := 0, baseSequence := 0,
    records := [exRecA, exRecC] }

/-- The compaction that `compact exDupBatch []` produces: the rebuilt
batch retains only the newest write of key `[1]` and one record is
reported dropped. -/
def exDupCompaction : Compaction :=
  { batch :=
      { baseOffset := 0, batchLength := 58, partitionLeaderEpoch := -1,
        magic := 2, crc := 131794023, attributes := 0, lastOffsetDelta := 2,
        baseTimestamp := 0, maxTimestamp := 0, producerId := -1,
        producerEpoch := 0, baseSequence := 0, records := [exRecB] },
    records := 1 }

/-- A batch holding the single record `exRecA`. -/
def exSingleBatch : Batch :=
  { baseOffset := 0, batchLength := 0, partitionLeaderEpoch := -1,
    magic := 2, crc := 0, attributes := 0, lastOffsetDelta := 0,
    baseTimestamp := 0, maxTimestamp := 0, producerId := -1,
    producerEpoch := 0, baseSequence := 0,
    records := [exRecA] }

end Tansu

namespace TansuConfig

/-- The alteration `IncrementalAlter(Set, cleanup.policy, compact)` of
scenario S6. -/
def exAlterSetCompact : AlterConfigsResource :=
  { resourceType := .topic, resourceName := "test-topic",
    configs := [{ name := "cleanup.policy", configOperation := .set,
                  value := some "compact" }] }

/-- The alteration `IncrementalAlter(Set, cleanup.policy, delete)` of
scenario S6. -/
def exAlterSetDelete : AlterConfigsResource :=
  { resourceType := .topic, resourceName := "test-topic",
    configs := [{ name := "cleanup.policy", configOperation := .set,
                  value := some "delete" }] }

/-- The alteration `IncrementalAlter(Delete, cleanup.policy)` of
scenario S6. -/
def exAlterDelete : AlterConfigsResource :=
  { resourceType := .topic, resourceName := "test-topic",
    configs := [{ name := "cleanup.policy", configOperation := .delete,
                  value := none }] }

/-- The topic state after creating with no configs. -/
def exState0 : TopicConfigState := createTopic []

/-- The state after `Set(cleanup.policy, compact)`. -/
def exState1 : TopicConfigState := (incrementalAlterResource exState0 exAlterSetCompact).1

/-- The state after a further `Set(cleanup.policy, delete)`. -/
def exState2 : TopicConfigState := (incrementalAlterResource exState1 exAlterSetDelete).1

/-- The state after `Delete(cleanup.policy)`. -/
def exState3 : TopicConfigState := (incrementalAlterResource exState2 exAlterDelete).1

end TansuConfig

namespace TansuEnv

/-- An environment binding the variable `A` to the value `x`. -/
def exEnv : List (List Char × List Char) := [(['A'], ['x'])]

/-- The configuration string `${A}${A}` with two occurrences of the same
variable. -/
def exStr : List Char :=
  [dollar, lbrace, 'A', rbrace, dollar, lbrace, 'A', rbrace]

end TansuEnv

/-!
## Theorems
-/

open Tansu

/-- C3: compacting the eleven-record test batch with an empty head
retains exactly the records with offset deltas 3, 4, 6, 8, 9, 10 and
reports five records dropped; compacting it with head `{k6}` retains
exactly 3, 4, 6, 8, 9 and reports six dropped. -/
theorem compaction_scenarios :
    ((build exS2Builder).bind fun b => compact b []).map
        (fun c => (c.batch.records.map Record.offsetDelta, c.records)) =
      some ([3, 4, 6, 8, 9, 10], 5) ∧
    ((build exS2Builder).bind fun b => compact b [kBytes 6]).map
        (fun c => (c.batch.records.map Record.offsetDelta, c.records)) =
      some ([3, 4, 6, 8, 9], 6) := by
  decide

/-- The encoding of the scenario-S1 batch is byte-for-byte the vector
pinned by `tests::batch_decode` of
src/tansu-sans-io/src/record/inflated.rs. -/
theorem s1_encoding_matches_pinned_bytes :
    (build exS1Builder).map encodeBatch =
      some [0, 0, 0, 0, 0, 0, 0, 0, 0, 0, 0, 59, 255, 255, 255, 255, 2, 67,
        41, 231, 61, 0, 0, 0, 0, 0, 0, 0, 0, 1, 141, 116, 152, 137, 53, 0, 0,
        1, 141, 116, 152, 137, 53, 0, 0, 0, 0, 0, 0, 0, 1, 0, 0, 0, 0, 0, 1,
        0, 0, 0, 1, 18, 0, 0, 0, 1, 6, 100, 101, 102, 0] := by
  decide

/-- C4 counterexample: the encoding of the scenario-S1 batch is not 76
bytes long (it is 71 bytes: 12 header bytes plus `batch_length = 59`). -/
theorem s1_encoding_is_not_76_bytes :
    ¬ ((build exS1Builder).map (fun b => (encodeBatch b).length) = some 76) := by
  decide

/-- C4 amended: building the scenario-S1 batch yields
`batch_length = 59` and `crc = 1126819645`, and its encoding is 71
bytes long. -/
theorem s1_batch_length_crc_and_size :
    (build exS1Builder).map
        (fun b => (b.batchLength, b.crc, (encodeBatch b).length)) =
      some (59, 1126819645, 71) := by
  decide

/-- C5: after creating a topic with empty configs the described config
list is empty; after `Set(cleanup.policy, compact)` it holds exactly one
entry with value `compact` and source `DefaultConfig`; after
`Set(cleanup.policy, delete)` the value is `delete`; after
`Delete(cleanup.policy)` the list is empty again; and every alteration
answers `ErrorCode::None` echoing the resource type and name. -/
theorem config_describe_after_incremental_alter :
    TansuConfig.describeConfigs TansuConfig.exState0 = [] ∧
    TansuConfig.describeConfigs TansuConfig.exState1 =
      [{ name := "cleanup.policy", value := some "compact",
         readOnly := false, configSource := .defaultConfig,
         isSensitive := false, synonyms := [] }] ∧
    TansuConfig.describeConfigs TansuConfig.exState2 =
      [{ name := "cleanup.policy", value := some "delete",
         readOnly := false, configSource := .defaultConfig,
         isSensitive := false, synonyms := [] }] ∧
    TansuConfig.describeConfigs TansuConfig.exState3 = [] ∧
    (TansuConfig.incrementalAlterResource TansuConfig.exState0
        TansuConfig.exAlterSetCompact).2 =
      { errorCode := .none, resourceType := .topic,
        resourceName := "test-topic" } ∧
    (TansuConfig.incrementalAlterResource TansuConfig.exState1
        TansuConfig.exAlterSetDelete).2 =
      { errorCode := .none, resourceType := .topic,
        resourceName := "test-topic" } ∧
    (TansuConfig.incrementalAlterResource TansuConfig.exState2
        TansuConfig.exAlterDelete).2 =
      { errorCode := .none, resourceType := .topic,
        resourceName := "test-topic" } := by
  decide

/-- C6: on a fresh partition, producing a single-record batch returns
the offset that `list_offsets Latest` reported before the produce; after
the produce, `Latest` reports that offset plus one while `Earliest` is
unchanged, and every `list_offsets` response carries error code `None`. -/
theorem produce_advances_offsets (b : Batch) (h : b.records.length = 1) :
    (TansuLog.listOffsets TansuLog.freshPartition .latest).offset =
      some (TansuLog.produce TansuLog.freshPartition b).1 ∧
    (TansuLog.listOffsets
        (TansuLog.produce TansuLog.freshPartition b).2 .latest).offset =
      some ((TansuLog.produce TansuLog.freshPartition b).1 + 1) ∧
    TansuLog.listOffsets
        (TansuLog.produce TansuLog.freshPartition b).2 .earliest =
      TansuLog.listOffsets TansuLog.freshPartition .earliest ∧
    (TansuLog.listOffsets TansuLog.freshPartition .earliest).errorCode = .none ∧
    (TansuLog.listOffsets TansuLog.freshPartition .latest).errorCode = .none ∧
    (TansuLog.listOffsets
        (TansuLog.produce TansuLog.freshPartition b).2 .earliest).errorCode = .none ∧
    (TansuLog.listOffsets
        (TansuLog.produce TansuLog.freshPartition b).2 .latest).errorCode = .none := by
  simp [TansuLog.listOffsets, TansuLog.produce, TansuLog.freshPartition, h]

/-- Witness for the produce scenario at a concrete single-record batch. -/
theorem produce_advances_offsets_witness :
    exSingleBatch.records.length = 1 ∧
    ((TansuLog.listOffsets TansuLog.freshPartition .latest).offset =
      some (TansuLog.produce TansuLog.freshPartition exSingleBatch).1 ∧
    (TansuLog.listOffsets
        (TansuLog.produce TansuLog.freshPartition exSingleBatch).2 .latest).offset =
      some ((TansuLog.produce TansuLog.freshPartition exSingleBatch).1 + 1) ∧
    TansuLog.listOffsets
        (TansuLog.produce TansuLog.freshPartition exSingleBatch).2 .earliest =
      TansuLog.listOffsets TansuLog.freshPartition .earliest ∧
    (TansuLog.listOffsets TansuLog.freshPartition .earliest).errorCode = .none ∧
    (TansuLog.listOffsets TansuLog.freshPartition .latest).errorCode = .none ∧
    (TansuLog.listOffsets
        (TansuLog.produce TansuLog.freshPartition exSingleBatch).2 .earliest).errorCode = .none ∧
    (TansuLog.listOffsets
        (TansuLog.produce TansuLog.freshPartition exSingleBatch).2 .latest).errorCode = .none) :=
  ⟨by decide, produce_advances_offsets exSingleBatch (by decide)⟩

/-- C8 counterexample: with `A` bound to `x`, replacing in `${A}${A}`
yields `x${A}` — only the first occurrence is resolved; an occurrence of
a bound variable remains in the output, so not every occurrence is
resolved. -/
theorem var_replace_leaves_second_occurrence :
    TansuEnv.varRepReplace TansuEnv.exEnv TansuEnv.exStr =
      ['x', TansuEnv.dollar, TansuEnv.lbrace, 'A', TansuEnv.rbrace] ∧
    TansuEnv.varRepReplace TansuEnv.exEnv TansuEnv.exStr ≠ ['x', 'x'] ∧
    TansuEnv.findVar (TansuEnv.varRepReplace TansuEnv.exEnv TansuEnv.exStr) ≠
      none ∧
    TansuEnv.lookupEnv TansuEnv.exEnv ['A'] = some ['x'] := by
  decide

/-- C10: a frame round-trip of a join-group response at api key 11
version 5 returns the body with `protocol_type` and `skip_assignment`
nulled and every other field unchanged; a round-trip of an offset-fetch
response at api key 9 version 7 nulls `groups` and keeps `topics`,
`error_code` and `throttle_time_ms`. -/
theorem frame_version_gating :
    (∀ r : TansuVersion.JoinGroupResponse,
      TansuVersion.frameRoundtrip 11 5 (.joinGroup r) =
        some (.joinGroup
          { r with protocolType := none, skipAssignment := none })) ∧
    (∀ s : TansuVersion.OffsetFetchResponse,
      TansuVersion.frameRoundtrip 9 7 (.offsetFetch s) =
        some (.offsetFetch { s with groups := none })) := by
  constructor
  · intro r
    have hm : TansuVersion.gateMember 5 = fun m => m := by
      funext m
      cases m
      simp [TansuVersion.gateMember]
    simp [TansuVersion.frameRoundtrip, TansuVersion.gateJoinGroup, hm]
  · intro s
    simp [TansuVersion.frameRoundtrip, TansuVersion.gateOffsetFetch]

namespace Tansu

/-- Insertion returns pairs of the original map, or the inserted pair. -/
theorem assocInsert_mem (m : List (Bytes × Int)) (k : Bytes) (v : Int) :
    ∀ p ∈ (assocInsert m k v).1, p ∈ m ∨ p = (k, v) := by
  induction m with
  | nil =>
    intro p hp
    simp only [assocInsert, List.mem_singleton] at hp
    exact Or.inr hp
  | cons q rest ih =>
    intro p hp
    obtain ⟨k0, v0⟩ := q
    by_cases h : k0 = k
    · simp only [assocInsert, if_pos h, List.mem_cons] at hp
      rcases hp with hp | hp
      · subst h
        exact Or.inr hp
      · exact Or.inl (List.mem_cons_of_mem _ hp)
    · simp only [assocInsert, if_neg h, List.mem_cons] at hp
      rcases hp with hp | hp
      · exact Or.inl (hp ▸ List.mem_cons_self _ _)
      · rcases ih p hp with h2 | h2
        · exact Or.inl (List.mem_cons_of_mem _ h2)
        · exact Or.inr h2

/-- Lookup of the inserted key finds the inserted value. -/
theorem assocInsert_lookup_self (m : List (Bytes × Int)) (k : Bytes) (v : Int) :
    alookup (assocInsert m k v).1 k = some v := by
  induction m with
  | nil => simp [assocInsert, alookup]
  | cons q rest ih =>
    obtain ⟨k0, v0⟩ := q
    by_cases h : k0 = k
    · simp only [assocInsert, if_pos h, alookup, if_pos h]
    · simp only [assocInsert, if_neg h, alookup, if_neg h, ih]

/-- Lookup of a different key is unchanged by an insertion. -/
theorem assocInsert_lookup_other (m : List (Bytes × Int)) (k : Bytes) (v : Int)
    (k' : Bytes) (h : k' ≠ k) :
    alookup (assocInsert m k v).1 k' = alookup m k' := by
  induction m with
  | nil =>
    simp only [assocInsert, alookup]
    rw [if_neg fun he => h he.symm]
  | cons q rest ih =>
    obtain ⟨k0, v0⟩ := q
    by_cases h0 : k0 = k
    · subst h0
      simp only [assocInsert, if_pos rfl, alookup]
      rw [if_neg fun he => h he.symm, if_neg fun he => h he.symm]
    · simp only [assocInsert, if_neg h0, alookup]
      by_cases h1 : k0 = k'
      · rw [if_pos h1, if_pos h1]
      · rw [if_neg h1, if_neg h1, ih]

/-- The insertion reports `true` exactly when the key was present. -/
theorem assocInsert_found (m : List (Bytes × Int)) (k : Bytes) (v : Int) :
    (assocInsert m k v).2 = (alookup m k).isSome := by
  induction m with
  | nil => simp [assocInsert, alookup]
  | cons q rest ih =>
    obtain ⟨k0, v0⟩ := q
    by_cases h : k0 = k
    · simp only [assocInsert, if_pos h, alookup, if_pos h, Option.isSome_some]
    · simp only [assocInsert, if_neg h, alookup, if_neg h, ih]

/-- A key maps to `none` exactly when it is absent from the map keys. -/
theorem alookup_eq_none (m : List (Bytes × Int)) (k : Bytes) :
    alookup m k = none ↔ k ∉ m.map Prod.fst := by
  induction m with
  | nil => simp [alookup]
  | cons q rest ih =>
    obtain ⟨k0, v0⟩ := q
    by_cases h : k0 = k
    · subst h
      simp [alookup]
    · have hk : k ≠ k0 := fun he => h he.symm
      simp [alookup, h, ih, hk]

/-- A successful lookup produces a pair of the map. -/
theorem alookup_mem (m : List (Bytes × Int)) (k : Bytes) (v : Int)
    (h : alookup m k = some v) : (k, v) ∈ m := by
  induction m with
  | nil => simp [alookup] at h
  | cons q rest ih =>
    obtain ⟨k0, v0⟩ := q
    by_cases h0 : k0 = k
    · subst h0
      simp only [alookup, if_pos rfl] at h
      injection h with h
      subst h
      exact List.mem_cons_self _ _
    · simp only [alookup, if_neg h0] at h
      exact List.mem_cons_of_mem _ (ih h)

/-- With no duplicate keys, membership determines the lookup. -/
theorem mem_alookup (m : List (Bytes × Int)) (k : Bytes) (v : Int)
    (hnd : (m.map Prod.fst).Nodup) (h : (k, v) ∈ m) : alookup m k = some v := by
  induction m with
  | nil => simp at h
  | cons q rest ih =>
    obtain ⟨k0, v0⟩ := q
    simp only [List.map_cons, List.nodup_cons] at hnd
    rcases List.mem_cons.mp h with h1 | h1
    · rw [← h1]
      simp [alookup]
    · have hk : k0 ≠ k := by
        intro he
        exact hnd.1 (he ▸ List.mem_map_of_mem Prod.fst h1)
      simp only [alookup, if_neg hk]
      exact ih hnd.2 h1

/-- Insertion adds at most the inserted key to the map keys. -/
theorem assocInsert_keys_subset (m : List (Bytes × Int)) (k : Bytes) (v : Int) :
    ∀ k' ∈ (assocInsert m k v).1.map Prod.fst,
      k' ∈ m.map Prod.fst ∨ k' = k := by
  intro k' h
  rcases List.mem_map.mp h with ⟨p, hp, hpk⟩
  rcases assocInsert_mem m k v p hp with h2 | h2
  · exact Or.inl (hpk ▸ List.mem_map_of_mem Prod.fst h2)
  · subst h2
    exact Or.inr hpk.symm

/-- Insertion preserves key uniqueness of the association list. -/
theorem assocInsert_nodup (m : List (Bytes × Int)) (k : Bytes) (v : Int)
    (hnd : (m.map Prod.fst).Nodup) :
    ((assocInsert m k v).1.map Prod.fst).Nodup := by
  induction m with
  | nil => simp [assocInsert]
  | cons q rest ih =>
    obtain ⟨k0, v0⟩ := q
    simp only [List.map_cons, List.nodup_cons] at hnd
    by_cases h : k0 = k
    · simp only [assocInsert, if_pos h, List.map_cons, List.nodup_cons]
      exact ⟨hnd.1, hnd.2⟩
    · simp only [assocInsert, if_neg h, List.map_cons, List.nodup_cons]
      refine ⟨?_, ih hnd.2⟩
      intro hmem
      rcases assocInsert_keys_subset rest k v k0 hmem with h2 | h2
      · exact hnd.1 h2
      · exact h h2

/-- Every pair of the scan's final map comes from the initial map or from
a record of the list whose key is outside the head set. -/
theorem compactScan_mem (head : List Bytes) (rs : List Record) :
    ∀ m c, ∀ p ∈ (compactScan head rs m c).1,
      p ∈ m ∨ (p.1 ∉ head ∧ ∃ r ∈ rs, r.key = some p.1 ∧ r.offsetDelta = p.2) := by
  induction rs with
  | nil =>
    intro m c p hp
    exact Or.inl hp
  | cons r rest ih =>
    intro m c p hp
    cases hk : r.key with
    | none =>
      simp only [compactScan, hk] at hp
      rcases ih m c p hp with h1 | h1
      · exact Or.inl h1
      · exact Or.inr ⟨h1.1, by
          obtain ⟨s, hs, hsk, hsd⟩ := h1.2
          exact ⟨s, List.mem_cons_of_mem _ hs, hsk, hsd⟩⟩
    | some k =>
      by_cases hh : k ∈ head
      · simp only [compactScan, hk, if_pos hh] at hp
        rcases ih m (c + 1) p hp with h1 | h1
        · exact Or.inl h1
        · exact Or.inr ⟨h1.1, by
            obtain ⟨s, hs, hsk, hsd⟩ := h1.2
            exact ⟨s, List.mem_cons_of_mem _ hs, hsk, hsd⟩⟩
      · simp only [compactScan, hk, if_neg hh] at hp
        rcases ih _ _ p hp with h1 | h1
        · rcases assocInsert_mem m k r.offsetDelta p h1 with h2 | h2
          · exact Or.inl h2
          · subst h2
            exact Or.inr ⟨hh, r, List.mem_cons_self _ _, hk, rfl⟩
        · exact Or.inr ⟨h1.1, by
            obtain ⟨s, hs, hsk, hsd⟩ := h1.2
            exact ⟨s, List.mem_cons_of_mem _ hs, hsk, hsd⟩⟩

/-- The scan preserves key uniqueness of the accumulator map. -/
theorem compactScan_nodup (head : List Bytes) (rs : List Record) :
    ∀ m c, (m.map Prod.fst).Nodup →
      ((compactScan head rs m c).1.map Prod.fst).Nodup := by
  induction rs with
  | nil => intro m c h; exact h
  | cons r rest ih =>
    intro m c h
    cases hk : r.key with
    | none =>
      simp only [compactScan, hk]
      exact ih m c h
    | some k =>
      by_cases hh : k ∈ head
      · simp only [compactScan, hk, if_pos hh]
        exact ih m (c + 1) h
      · simp only [compactScan, hk, if_neg hh]
        exact ih _ _ (assocInsert_nodup m k r.offsetDelta h)
/-- For a key outside the head set, the scan's final map holds the offset
delta of the last record carrying that key, falling back to the initial
map when the key never occurs. -/
theorem compactScan_lookup (head : List Bytes) (k : Bytes) (hk : k ∉ head)
    (rs : List Record) :
    ∀ m c, alookup (compactScan head rs m c).1 k =
      match lastKeyRec k rs with
      | some r => some r.offsetDelta
      | none => alookup m k := by
  induction rs with
  | nil => intro m c; rfl
  | cons r rest ih =>
    intro m c
    cases hr : r.key with
    | none =>
      simp only [compactScan, hr, lastKeyRec]
      rw [ih m c]
      cases hlast : lastKeyRec k rest with
      | some s => rfl
      | none => simp [hr]
    | some k' =>
      by_cases hh : k' ∈ head
      · have hne : k' ≠ k := fun he => hk (he ▸ hh)
        simp only [compactScan, hr, if_pos hh, lastKeyRec]
        rw [ih m (c + 1)]
        cases hlast : lastKeyRec k rest with
        | some s => rfl
        | none => simp [hne]
      · simp only [compactScan, hr, if_neg hh, lastKeyRec]
        rw [ih]
        cases hlast : lastKeyRec k rest with
        | some s => rfl
        | none =>
          by_cases he : k' = k
          · subst he
            simp [assocInsert_lookup_self]
          · simp [he,
              assocInsert_lookup_other m k' r.offsetDelta k fun hx => he hx.symm]

/-- The drop counter never decreases. -/
theorem compactScan_count_le (head : List Bytes) (rs : List Record) :
    ∀ m c, c ≤ (compactScan head rs m c).2 := by
  induction rs with
  | nil => intro m c; exact Nat.le_refl c
  | cons r rest ih =>
    intro m c
    cases hr : r.key with
    | none =>
      simp only [compactScan, hr]
      exact ih m c
    | some k =>
      by_cases hh : k ∈ head
      · simp only [compactScan, hr, if_pos hh]
        exact Nat.le_trans (Nat.le_succ c) (ih m (c + 1))
      · simp only [compactScan, hr, if_neg hh]
        by_cases hf : (assocInsert m k r.offsetDelta).2
        · simp only [hf, if_pos]
          exact Nat.le_trans (Nat.le_succ c) (ih _ (c + 1))
        · simp only [hf]
          simpa using ih (assocInsert m k r.offsetDelta).1 c

/-- The scan drops nothing exactly when the counter starts at zero, no
key of the records is in the head set or the initial map, and no key
occurs twice. -/
theorem compactScan_count_zero (head : List Bytes) (rs : List Record) :
    ∀ m c, (compactScan head rs m c).2 = 0 ↔
      c = 0 ∧ (∀ k ∈ keysOf rs, k ∉ head ∧ alookup m k = none) ∧
        (keysOf rs).Nodup := by
  induction rs with
  | nil =>
    intro m c
    simp [compactScan, keysOf]
  | cons r rest ih =>
    intro m c
    cases hr : r.key with
    | none =>
      have hkeys : keysOf (r :: rest) = keysOf rest := by
        simp [keysOf, List.filterMap_cons, hr]
      simp only [compactScan, hr, hkeys]
      exact ih m c
    | some k =>
      have hkeys : keysOf (r :: rest) = k :: keysOf rest := by
        simp [keysOf, List.filterMap_cons, hr]
      by_cases hh : k ∈ head
      · simp only [compactScan, hr, if_pos hh, hkeys]
        constructor
        · intro h
          have := compactScan_count_le head rest m (c + 1)
          omega
        · intro h
          exact absurd hh (h.2.1 k (List.mem_cons_self _ _)).1
      · by_cases hf : (alookup m k).isSome
        · have hf2 : (assocInsert m k r.offsetDelta).2 = true := by
            rw [assocInsert_found, hf]
          simp only [compactScan, hr, if_neg hh, hf2, if_true, hkeys]
          constructor
          · intro h
            have := compactScan_count_le head rest
              (assocInsert m k r.offsetDelta).1 (c + 1)
            omega
          · intro h
            have h2 := (h.2.1 k (List.mem_cons_self _ _)).2
            rw [h2] at hf
            simp at hf
        · have hf2 : (assocInsert m k r.offsetDelta).2 = false := by
            rw [assocInsert_found]
            simpa using hf
          have hnone : alookup m k = none := by
            cases h2 : alookup m k with
            | none => rfl
            | some v => rw [h2] at hf; simp at hf
          simp only [compactScan, hr, if_neg hh, hf2, if_false, hkeys]
          rw [ih]
          constructor
          · rintro ⟨hc, hcond, hnd⟩
            simp only [List.nodup_cons]
            refine ⟨hc, ?_, ?_, hnd⟩
            · intro k' hk'
              rcases List.mem_cons.mp hk' with h1 | h1
              · subst h1
                exact ⟨hh, hnone⟩
              · have h2 := hcond k' h1
                refine ⟨h2.1, ?_⟩
                by_cases he : k' = k
                · subst he
                  exact hnone
                · rw [← assocInsert_lookup_other m k r.offsetDelta k' he]
                  exact h2.2
            · intro hmem
              have h2 := (hcond k hmem).2
              rw [assocInsert_lookup_self] at h2
              simp at h2
          · rintro ⟨hc, hcond, hnd⟩
            simp only [List.nodup_cons] at hnd
            refine ⟨hc, ?_, hnd.2⟩
            intro k' hk'
            have h1 := hcond k' (List.mem_cons_of_mem _ hk')
            refine ⟨h1.1, ?_⟩
            have hne : k' ≠ k := fun he => hnd.1 (he ▸ hk')
            rw [assocInsert_lookup_other m k r.offsetDelta k' hne]
            exact h1.2

/-- The last record found for a key carries that key and belongs to the
list. -/
theorem lastKeyRec_mem (k : Bytes) (rs : List Record) (r : Record)
    (h : lastKeyRec k rs = some r) : r ∈ rs ∧ r.key = some k := by
  induction rs with
  | nil => simp [lastKeyRec] at h
  | cons r0 rest ih =>
    simp only [lastKeyRec] at h
    cases hlast : lastKeyRec k rest with
    | some s =>
      rw [hlast] at h
      injection h with h
      subst h
      obtain ⟨h1, h2⟩ := ih hlast
      exact ⟨List.mem_cons_of_mem _ h1, h2⟩
    | none =>
      rw [hlast] at h
      by_cases hk : r0.key = some k
      · rw [if_pos hk] at h
        injection h with h
        subst h
        exact ⟨List.mem_cons_self _ _, hk⟩
      · rw [if_neg hk] at h
        exact absurd h (by simp)

/-- When some record of the list carries the key, a last record exists. -/
theorem lastKeyRec_isSome (k : Bytes) (rs : List Record)
    (h : ∃ r ∈ rs, r.key = some k) : ∃ r, lastKeyRec k rs = some r := by
  induction rs with
  | nil => simp at h
  | cons r0 rest ih =>
    simp only [lastKeyRec]
    cases hlast : lastKeyRec k rest with
    | some s => exact ⟨s, rfl⟩
    | none =>
      obtain ⟨r, hr, hrk⟩ := h
      rcases List.mem_cons.mp hr with h1 | h1
      · subst h1
        exact ⟨r, by rw [if_pos hrk]⟩
      · obtain ⟨s, hs⟩ := ih ⟨r, h1, hrk⟩
        rw [hs] at hlast
        exact absurd hlast (by simp)

/-- With strictly increasing offset deltas, the last record for a key has
the greatest offset delta among the records carrying that key. -/
theorem lastKeyRec_max (k : Bytes) (rs : List Record)
    (hp : List.Pairwise (fun a b : Record => a.offsetDelta < b.offsetDelta) rs) :
    ∀ r, lastKeyRec k rs = some r →
      ∀ s ∈ rs, s.key = some k → s.offsetDelta ≤ r.offsetDelta := by
  induction rs with
  | nil => intro r h; simp [lastKeyRec] at h
  | cons r0 rest ih =>
    rcases List.pairwise_cons.mp hp with ⟨h0, hrest⟩
    intro r h s hs hsk
    simp only [lastKeyRec] at h
    cases hlast : lastKeyRec k rest with
    | some t =>
      rw [hlast] at h
      injection h with h
      rw [← h]
      rcases List.mem_cons.mp hs with h1 | h1
      · rw [h1]
        exact Int.le_of_lt (h0 t ((lastKeyRec_mem k rest t hlast).1))
      · exact ih hrest t hlast s h1 hsk
    | none =>
      rw [hlast] at h
      rcases List.mem_cons.mp hs with h1 | h1
      · rw [if_pos (h1 ▸ hsk)] at h
        injection h with h
        rw [← h, h1]
      · obtain ⟨t, ht⟩ := lastKeyRec_isSome k rest ⟨s, h1, hsk⟩
        rw [ht] at hlast
        exact absurd hlast (by simp)

/-- With unique keys, the records carrying a present key form a
singleton. -/
theorem filter_key_singleton (rs : List Record) (hnd : (keysOf rs).Nodup)
    (k : Bytes) (hk : k ∈ keysOf rs) :
    ∃ r, rs.filter (fun x => x.key = some k) = [r] ∧ r.key = some k := by
  induction rs with
  | nil => simp [keysOf] at hk
  | cons r0 rest ih =>
    cases hr : r0.key with
    | none =>
      have hkeys : keysOf (r0 :: rest) = keysOf rest := by
        simp [keysOf, List.filterMap_cons, hr]
      rw [hkeys] at hnd hk
      have hq : (r0.key = some k) = False := by simp [hr]
      obtain ⟨r, hfilter, hrk⟩ := ih hnd hk
      exact ⟨r, by simp [List.filter_cons, hq, hfilter], hrk⟩
    | some k0 =>
      have hkeys : keysOf (r0 :: rest) = k0 :: keysOf rest := by
        simp [keysOf, List.filterMap_cons, hr]
      rw [hkeys] at hnd hk
      simp only [List.nodup_cons] at hnd
      by_cases he : k0 = k
      · subst he
        have hq : r0.key = some k0 := hr
        have hempty : rest.filter (fun x => x.key = some k0) = [] := by
          rw [List.filter_eq_nil_iff]
          intro x hx hxk
          apply hnd.1
          simp only [keysOf, List.mem_filterMap]
          exact ⟨x, hx, by simpa using hxk⟩
        exact ⟨r0, by simp [List.filter_cons, hq, hempty], hq⟩
      · have hq : (r0.key = some k) = False := by simp [hr, he]
        have hk2 : k ∈ keysOf rest := by
          rcases List.mem_cons.mp hk with h1 | h1
          · exact absurd h1.symm he
          · exact h1
        obtain ⟨r, hfilter, hrk⟩ := ih hnd.2 hk2
        exact ⟨r, by simp [List.filter_cons, hq, hfilter], hrk⟩

/-- A duplicate-free list whose members all equal `r`, with `r` a member,
is the singleton `[r]`. -/
theorem nodup_all_eq_singleton {α : Type} (l : List α) (r : α)
    (hnd : l.Nodup) (hm : r ∈ l) (hall : ∀ x ∈ l, x = r) : l = [r] := by
  cases l with
  | nil => simp at hm
  | cons x t =>
    have hx : x = r := hall x (List.mem_cons_self _ _)
    subst hx
    simp only [List.nodup_cons] at hnd
    cases t with
    | nil => rfl
    | cons y ty =>
      have hy : y = x := hall y (List.mem_cons_of_mem _ (List.mem_cons_self _ _))
      subst hy
      exact absurd (List.mem_cons_self _ _) hnd.1

/-- A successful build copies every builder field, sets `batch_length`
to the computed size and `crc` to the recomputed checksum. -/
theorem build_eq_some (b : Builder) (batch : Batch) (h : build b = some batch) :
    batch.baseOffset = b.baseOffset ∧
    batch.partitionLeaderEpoch = b.partitionLeaderEpoch ∧
    batch.magic = b.magic ∧
    batch.attributes = b.attributes ∧
    batch.lastOffsetDelta = b.lastOffsetDelta ∧
    batch.baseTimestamp = b.baseTimestamp ∧
    batch.maxTimestamp = b.maxTimestamp ∧
    batch.producerId = b.producerId ∧
    batch.producerEpoch = b.producerEpoch ∧
    batch.baseSequence = b.baseSequence ∧
    batch.records = b.records ∧
    batch.batchLength = Int.ofNat (sizeInBytes b) ∧
    batch.crc = crc32c (batchBody b) := by
  unfold build at h
  by_cases hs : sizeInBytes b < 2 ^ 31
  · rw [if_pos hs] at h
    injection h with h
    subst h
    exact ⟨rfl, rfl, rfl, rfl, rfl, rfl, rfl, rfl, rfl, rfl, rfl, rfl, rfl⟩
  · rw [if_neg hs] at h
    exact absurd h (by simp)

/-- Converting a successfully built batch back into a builder recovers
the original builder. -/
theorem build_intoBuilder (b : Builder) (batch : Batch)
    (h : build b = some batch) : intoBuilder batch = b := by
  obtain ⟨h1, h2, h3, h4, h5, h6, h7, h8, h9, h10, h11, _, _⟩ :=
    build_eq_some b batch h
  cases b
  simp only [intoBuilder]
  simp_all

/-- In the rebuild branch, `compact` reports the scan count and retains
exactly the records whose offset delta is a remembered latest delta,
while the rebuilt batch keeps every header field of the input. -/
theorem compact_pos (B : Batch) (H : List Bytes) (C : Compaction)
    (hc : compact B H = some C)
    (hpos : 0 < (compactScan H B.records [] 0).2) :
    C.records = (compactScan H B.records [] 0).2 ∧
    C.batch.records = B.records.filter
      (fun r => r.offsetDelta ∈ (compactScan H B.records [] 0).1.map Prod.snd) ∧
    C.batch.baseOffset = B.baseOffset ∧
    C.batch.partitionLeaderEpoch = B.partitionLeaderEpoch ∧
    C.batch.magic = B.magic ∧
    C.batch.attributes = B.attributes ∧
    C.batch.lastOffsetDelta = B.lastOffsetDelta ∧
    C.batch.baseTimestamp = B.baseTimestamp ∧
    C.batch.maxTimestamp = B.maxTimestamp ∧
    C.batch.producerId = B.producerId ∧
    C.batch.producerEpoch = B.producerEpoch ∧
    C.batch.baseSequence = B.baseSequence := by
  unfold compact at hc
  rw [if_pos hpos] at hc
  rcases Option.map_eq_some'.mp hc with ⟨batch, hbuild, hC⟩
  obtain ⟨h1, h2, h3, h4, h5, h6, h7, h8, h9, h10, h11, _, _⟩ :=
    build_eq_some _ batch hbuild
  subst hC
  simp only [intoBuilder] at h1 h2 h3 h4 h5 h6 h7 h8 h9 h10 h11
  exact ⟨rfl, h11, h1, h2, h3, h4, h5, h6, h7, h8, h9, h10⟩

/-- In the no-drop branch, `compact` returns the batch unchanged with a
zero count. -/
theorem compact_zero (B : Batch) (H : List Bytes) (C : Compaction)
    (hc : compact B H = some C)
    (hz : ¬ 0 < (compactScan H B.records [] 0).2) :
    C = { batch := B, records := (compactScan H B.records [] 0).2 } := by
  unfold compact at hc
  rw [if_neg hz] at hc
  injection hc with hc
  exact hc.symm

/-- The count reported by `compact` is the scan count. -/
theorem compact_count (B : Batch) (H : List Bytes) (C : Compaction)
    (hc : compact B H = some C) :
    C.records = (compactScan H B.records [] 0).2 := by
  by_cases hpos : 0 < (compactScan H B.records [] 0).2
  · exact (compact_pos B H C hc hpos).1
  · rw [compact_zero B H C hc hpos]

/-- A record whose offset delta is a remembered latest delta carries a
key outside the head set whose map entry is that delta. -/
theorem retained_record_spec (B : Batch) (H : List Bytes)
    (hnd : (B.records.map Record.offsetDelta).Nodup)
    (s : Record) (hs : s ∈ B.records)
    (hmem : s.offsetDelta ∈ (compactScan H B.records [] 0).1.map Prod.snd) :
    ∃ k, s.key = some k ∧ k ∉ H ∧
      (k, s.offsetDelta) ∈ (compactScan H B.records [] 0).1 := by
  rcases List.mem_map.mp hmem with ⟨p, hp, hpd⟩
  rcases compactScan_mem H B.records [] 0 p hp with h1 | h1
  · simp at h1
  · obtain ⟨hH, r, hr, hrk, hrd⟩ := h1
    have hrs : r = s :=
      List.inj_on_of_nodup_map hnd hr hs (by rw [hrd, hpd])
    subst hrs
    refine ⟨p.1, hrk, hH, ?_⟩
    have : p = (p.1, r.offsetDelta) := by
      rw [hrd]
    rw [← this]
    exact hp

/-- C1 counterexample: in a batch holding two writes of key `[1]` and a
null-keyed record, compaction with an empty head returns a batch whose
records are exactly the newest write of key `[1]` — the null-keyed
record does not appear in the returned batch. -/
theorem compact_drops_null_keyed_record :
    exRecNull ∈ exDupBatch.records ∧ exRecNull.key = none ∧
    (compact exDupBatch []).map (fun c => c.batch.records) = some [exRecB] ∧
    exRecNull ∉ ([exRecB] : List Record) := by
  decide

/-- C1 amended: a null-keyed record survives compaction when nothing is
dropped (the batch is returned unchanged); when the drop count is
positive and offset deltas are unique within the batch, every null-keyed
record is dropped by the rebuild. -/
theorem compact_null_keyed (B : Batch) (H : List Bytes) (C : Compaction)
    (hc : compact B H = some C) (r : Record) (hr : r ∈ B.records)
    (hk : r.key = none) :
    (C.records = 0 → r ∈ C.batch.records) ∧
    ((B.records.map Record.offsetDelta).Nodup → 0 < C.records →
      r ∉ C.batch.records) := by
  constructor
  · intro h0
    have hz : ¬ 0 < (compactScan H B.records [] 0).2 := by
      rw [← compact_count B H C hc]
      omega
    rw [compact_zero B H C hc hz]
    exact hr
  · intro hnd hpos
    have hpos2 : 0 < (compactScan H B.records [] 0).2 := by
      rw [← compact_count B H C hc]
      exact hpos
    obtain ⟨_, hrecs, _⟩ := compact_pos B H C hc hpos2
    rw [hrecs]
    intro hmem
    have hmem2 := (List.mem_filter.mp hmem).2
    obtain ⟨k, hk2, _, _⟩ :=
      retained_record_spec B H hnd r hr (by simpa using hmem2)
    rw [hk] at hk2
    exact absurd hk2 (by simp)

/-- Witness: applying the amended null-key theorem to the concrete
duplicated-key batch shows its null-keyed record is dropped. -/
theorem compact_null_keyed_witness :
    compact exDupBatch [] = some exDupCompaction ∧
    exRecNull ∈ exDupBatch.records ∧ exRecNull.key = none ∧
    ((exDupCompaction.records = 0 → exRecNull ∈ exDupCompaction.batch.records) ∧
      ((exDupBatch.records.map Record.offsetDelta).Nodup →
        0 < exDupCompaction.records →
        exRecNull ∉ exDupCompaction.batch.records)) :=
  ⟨by decide, by decide, by decide,
    compact_null_keyed exDupBatch [] exDupCompaction (by decide) exRecNull
      (by decide) (by decide)⟩

/-- C2: with offset deltas strictly increasing within the batch (the
batch invariant of the data model), compaction drops every record whose
key is in the head set, and for each non-null key present in the batch
and outside the head set exactly one record with that key remains — the
one with the greatest offset delta for that key. -/
theorem compact_last_write_wins (B : Batch) (H : List Bytes) (C : Compaction)
    (hc : compact B H = some C)
    (hsort : List.Pairwise (· < ·) (B.records.map Record.offsetDelta)) :
    (∀ r ∈ B.records, ∀ k, r.key = some k → k ∈ H → r ∉ C.batch.records) ∧
    (∀ k, k ∉ H → k ∈ keysOf B.records →
      ∃ r, C.batch.records.filter (fun x => x.key = some k) = [r] ∧
        r ∈ B.records ∧ r.key = some k ∧
        ∀ s ∈ B.records, s.key = some k →
          s.offsetDelta ≤ r.offsetDelta) := by
  have hnd : (B.records.map Record.offsetDelta).Nodup :=
    hsort.imp fun h => ne_of_lt h
  have hrecnd : B.records.Nodup := List.Nodup.of_map _ hnd
  have hpair : List.Pairwise
      (fun a b : Record => a.offsetDelta < b.offsetDelta) B.records :=
    List.pairwise_map.mp hsort
  by_cases hpos : 0 < (compactScan H B.records [] 0).2
  · obtain ⟨hcount, hrecs, _⟩ := compact_pos B H C hc hpos
    have hMnd : (((compactScan H B.records [] 0).1).map Prod.fst).Nodup :=
      compactScan_nodup H B.records [] 0 (by simp)
    constructor
    · intro r hr k hk hkH
      rw [hrecs]
      intro hmem
      have hmem2 := (List.mem_filter.mp hmem).2
      obtain ⟨k', hk', hknH, _⟩ :=
        retained_record_spec B H hnd r hr (by simpa using hmem2)
      rw [hk] at hk'
      injection hk' with hk'
      exact hknH (hk' ▸ hkH)
    · intro k hkH hkin
      have hex : ∃ r ∈ B.records, r.key = some k := by
        simpa [keysOf, List.mem_filterMap] using hkin
      obtain ⟨last, hlast⟩ := lastKeyRec_isSome k B.records hex
      obtain ⟨hlmem, hlkey⟩ := lastKeyRec_mem k B.records last hlast
      have hlook : alookup (compactScan H B.records [] 0).1 k =
          some last.offsetDelta := by
        have h2 := compactScan_lookup H k hkH B.records [] 0
        rw [hlast] at h2
        exact h2
      have hlastin : last.offsetDelta ∈
          ((compactScan H B.records [] 0).1).map Prod.snd :=
        List.mem_map_of_mem Prod.snd
          (alookup_mem _ k last.offsetDelta hlook)
      have hlmem2 : last ∈
          C.batch.records.filter (fun x => x.key = some k) := by
        rw [hrecs]
        exact List.mem_filter.mpr
          ⟨List.mem_filter.mpr ⟨hlmem, by simpa using hlastin⟩,
            by simp [hlkey]⟩
      have hall : ∀ x ∈ C.batch.records.filter (fun x => x.key = some k),
          x = last := by
        intro x hx
        have hx1 := List.mem_filter.mp hx
        have hxk : x.key = some k := by simpa using hx1.2
        have hx0 : x ∈ B.records.filter
            (fun r => r.offsetDelta ∈
              ((compactScan H B.records [] 0).1).map Prod.snd) := by
          rw [← hrecs]
          exact hx1.1
        have hx2 := List.mem_filter.mp hx0
        obtain ⟨k', hk', hknH, hpm⟩ :=
          retained_record_spec B H hnd x hx2.1 (by simpa using hx2.2)
        have hkk : k' = k := by
          rw [hxk] at hk'
          injection hk' with hk'
          exact hk'.symm
        subst hkk
        have hlx : alookup (compactScan H B.records [] 0).1 k' =
            some x.offsetDelta :=
          mem_alookup _ k' x.offsetDelta hMnd hpm
        rw [hlook] at hlx
        injection hlx with hlx
        exact List.inj_on_of_nodup_map hnd hx2.1 hlmem hlx.symm
      have hndf : (C.batch.records.filter
          (fun x => x.key = some k)).Nodup := by
        rw [hrecs]
        exact (hrecnd.filter _).filter _
      exact ⟨last, nodup_all_eq_singleton _ last hndf hlmem2 hall,
        hlmem, hlkey, lastKeyRec_max k B.records hpair last hlast⟩
  · have hCz := compact_zero B H C hc hpos
    have hz0 : (compactScan H B.records [] 0).2 = 0 := by omega
    obtain ⟨_, hcond, hknd⟩ :=
      (compactScan_count_zero H B.records [] 0).mp hz0
    constructor
    · intro r hr k hk hkH
      have hkin : k ∈ keysOf B.records := by
        simp only [keysOf, List.mem_filterMap]
        exact ⟨r, hr, hk⟩
      exact absurd hkH (hcond k hkin).1
    · intro k hkH hkin
      obtain ⟨r, hfil, hrk⟩ := filter_key_singleton B.records hknd k hkin
      have hrmem : r ∈ B.records := by
        have : r ∈ B.records.filter (fun x => x.key = some k) := by
          rw [hfil]
          exact List.mem_cons_self _ _
        exact (List.mem_filter.mp this).1
      refine ⟨r, ?_, hrmem, hrk, ?_⟩
      · rw [hCz]
        exact hfil
      · intro s hs hsk
        have hsf : s ∈ B.records.filter (fun x => x.key = some k) :=
          List.mem_filter.mpr ⟨hs, by simp [hsk]⟩
        rw [hfil] at hsf
        rcases List.mem_singleton.mp hsf with h1
        rw [h1]

/-- Witness: last-write-wins applied to the duplicate-free two-key batch
with an empty head. -/
theorem compact_last_write_wins_witness :
    compact exDistinctBatch [] =
      some { batch := exDistinctBatch, records := 0 } ∧
    List.Pairwise (· < ·) (exDistinctBatch.records.map Record.offsetDelta) ∧
    ((∀ r ∈ exDistinctBatch.records, ∀ k, r.key = some k → k ∈ ([] : List Bytes) →
        r ∉ (Compaction.mk exDistinctBatch 0).batch.records) ∧
      (∀ k, k ∉ ([] : List Bytes) → k ∈ keysOf exDistinctBatch.records →
        ∃ r, (Compaction.mk exDistinctBatch 0).batch.records.filter
            (fun x => x.key = some k) = [r] ∧
          r ∈ exDistinctBatch.records ∧ r.key = some k ∧
          ∀ s ∈ exDistinctBatch.records, s.key = some k →
            s.offsetDelta ≤ r.offsetDelta)) :=
  ⟨by decide, by decide,
    compact_last_write_wins exDistinctBatch [] ⟨exDistinctBatch, 0⟩
      (by decide) (by decide)⟩

/-- C7: compaction preserves `base_offset`, `last_offset_delta`,
`base_timestamp`, `max_timestamp`, `attributes`, `producer_id`,
`producer_epoch` and `base_sequence` (and also `partition_leader_epoch`
and `magic`), and the surviving records are a sublist of the input
records — kept verbatim, not renumbered. -/
theorem compact_preserves_header (B : Batch) (H : List Bytes)
    (C : Compaction) (hc : compact B H = some C) :
    C.batch.baseOffset = B.baseOffset ∧
    C.batch.lastOffsetDelta = B.lastOffsetDelta ∧
    C.batch.baseTimestamp = B.baseTimestamp ∧
    C.batch.maxTimestamp = B.maxTimestamp ∧
    C.batch.attributes = B.attributes ∧
    C.batch.producerId = B.producerId ∧
    C.batch.producerEpoch = B.producerEpoch ∧
    C.batch.baseSequence = B.baseSequence ∧
    C.batch.partitionLeaderEpoch = B.partitionLeaderEpoch ∧
    C.batch.magic = B.magic ∧
    C.batch.records.Sublist B.records := by
  by_cases hpos : 0 < (compactScan H B.records [] 0).2
  · obtain ⟨_, hrecs, h1, h2, h3, h4, h5, h6, h7, h8, h9, h10⟩ :=
      compact_pos B H C hc hpos
    refine ⟨h1, h5, h6, h7, h4, h8, h9, h10, h2, h3, ?_⟩
    rw [hrecs]
    exact List.filter_sublist _
  · rw [compact_zero B H C hc hpos]
    exact ⟨rfl, rfl, rfl, rfl, rfl, rfl, rfl, rfl, rfl, rfl,
      List.Sublist.refl _⟩

/-- Witness: header preservation at the concrete two-key batch. -/
theorem compact_preserves_header_witness :
    compact exDistinctBatch [] =
      some { batch := exDistinctBatch, records := 0 } ∧
    ((Compaction.mk exDistinctBatch 0).batch.baseOffset =
        exDistinctBatch.baseOffset ∧
     (Compaction.mk exDistinctBatch 0).batch.lastOffsetDelta =
        exDistinctBatch.lastOffsetDelta ∧
     (Compaction.mk exDistinctBatch 0).batch.baseTimestamp =
        exDistinctBatch.baseTimestamp ∧
     (Compaction.mk exDistinctBatch 0).batch.maxTimestamp =
        exDistinctBatch.maxTimestamp ∧
     (Compaction.mk exDistinctBatch 0).batch.attributes =
        exDistinctBatch.attributes ∧
     (Compaction.mk exDistinctBatch 0).batch.producerId =
        exDistinctBatch.producerId ∧
     (Compaction.mk exDistinctBatch 0).batch.producerEpoch =
        exDistinctBatch.producerEpoch ∧
     (Compaction.mk exDistinctBatch 0).batch.baseSequence =
        exDistinctBatch.baseSequence ∧
     (Compaction.mk exDistinctBatch 0).batch.partitionLeaderEpoch =
        exDistinctBatch.partitionLeaderEpoch ∧
     (Compaction.mk exDistinctBatch 0).batch.magic =
        exDistinctBatch.magic ∧
     (Compaction.mk exDistinctBatch 0).batch.records.Sublist
        exDistinctBatch.records) :=
  ⟨by decide,
    compact_preserves_header exDistinctBatch [] ⟨exDistinctBatch, 0⟩
      (by decide)⟩

/-- C9: the drop count is zero exactly when no keyed record's key is in
the head set and no non-null key occurs twice; with a zero count the
returned batch is the input batch unchanged (`crc` and `batch_length`
included); with a positive count the returned batch carries a
`batch_length` and `crc` recomputed from its own retained records. -/
theorem compact_zero_is_identity (B : Batch) (H : List Bytes)
    (C : Compaction) (hc : compact B H = some C) :
    (C.records = 0 ↔
      (∀ k ∈ keysOf B.records, k ∉ H) ∧ (keysOf B.records).Nodup) ∧
    (C.records = 0 → C.batch = B) ∧
    (0 < C.records →
      C.batch.batchLength = Int.ofNat (sizeInBytes (intoBuilder C.batch)) ∧
      C.batch.crc = crc32c (batchBody (intoBuilder C.batch))) := by
  have hcount := compact_count B H C hc
  refine ⟨?_, ?_, ?_⟩
  · rw [hcount, compactScan_count_zero H B.records [] 0]
    constructor
    · intro h
      exact ⟨fun k hk => (h.2.1 k hk).1, h.2.2⟩
    · intro h
      exact ⟨rfl, fun k hk => ⟨h.1 k hk, rfl⟩, h.2⟩
  · intro h0
    have hz : ¬ 0 < (compactScan H B.records [] 0).2 := by
      omega
    rw [compact_zero B H C hc hz]
  · intro hpos
    have hpos2 : 0 < (compactScan H B.records [] 0).2 := by
      omega
    unfold compact at hc
    rw [if_pos hpos2] at hc
    rcases Option.map_eq_some'.mp hc with ⟨batch, hbuild, hC⟩
    have hib := build_intoBuilder _ batch hbuild
    obtain ⟨_, _, _, _, _, _, _, _, _, _, _, h12, h13⟩ :=
      build_eq_some _ batch hbuild
    subst hC
    simp only
    rw [hib, h12, h13]
    exact ⟨rfl, rfl⟩

/-- Witness: the no-drop identity at the concrete two-key batch. -/
theorem compact_zero_is_identity_witness :
    compact exDistinctBatch [] =
      some { batch := exDistinctBatch, records := 0 } ∧
    (((Compaction.mk exDistinctBatch 0).records = 0 ↔
        (∀ k ∈ keysOf exDistinctBatch.records, k ∉ ([] : List Bytes)) ∧
          (keysOf exDistinctBatch.records).Nodup) ∧
      ((Compaction.mk exDistinctBatch 0).records = 0 →
        (Compaction.mk exDistinctBatch 0).batch = exDistinctBatch) ∧
      (0 < (Compaction.mk exDistinctBatch 0).records →
        (Compaction.mk exDistinctBatch 0).batch.batchLength =
          Int.ofNat (sizeInBytes
            (intoBuilder (Compaction.mk exDistinctBatch 0).batch)) ∧
        (Compaction.mk exDistinctBatch 0).batch.crc =
          crc32c (batchBody
            (intoBuilder (Compaction.mk exDistinctBatch 0).batch)))) :=
  ⟨by decide,
    compact_zero_is_identity exDistinctBatch [] ⟨exDistinctBatch, 0⟩
      (by decide)⟩

/-- A match of the expansion pattern can only start at a dollar sign. -/
theorem matchVarAt_nondollar (c : Char) (rest : List Char)
    (h : c ≠ TansuEnv.dollar) : TansuEnv.matchVarAt (c :: rest) = none := by
  cases rest with
  | nil => rfl
  | cons b t =>
    simp only [TansuEnv.matchVarAt]
    rw [if_neg]
    intro h2
    exact h h2.1

/-- Search (`findVar`) skips a non-dollar character, prefixing it to the text
before the match. -/
theorem findVar_cons_nondollar (c : Char) (rest : List Char)
    (h : c ≠ TansuEnv.dollar) :
    TansuEnv.findVar (c :: rest) =
      (TansuEnv.findVar rest).map fun q => (c :: q.1, q.2.1, q.2.2) := by
  simp only [TansuEnv.findVar, matchVarAt_nondollar c rest h]

/-- Taking (`takeWhile`) over a satisfying prefix stops at the first failing
character. -/
theorem takeWhile_before_stop (p : Char → Bool) (l t : List Char) (x : Char)
    (hl : ∀ c ∈ l, p c = true) (hx : p x = false) :
    (l ++ x :: t).takeWhile p = l := by
  induction l with
  | nil => simp [List.takeWhile_cons, hx]
  | cons a l ih =>
    have ha := hl a (List.mem_cons_self _ _)
    simp only [List.cons_append, List.takeWhile_cons, ha]
    simp only [if_true]
    rw [ih fun c hc => hl c (List.mem_cons_of_mem _ hc)]

/-- Dropping (`dropWhile`) over a satisfying prefix drops exactly that prefix. -/
theorem dropWhile_before_stop (p : Char → Bool) (l t : List Char) (x : Char)
    (hl : ∀ c ∈ l, p c = true) (hx : p x = false) :
    (l ++ x :: t).dropWhile p = x :: t := by
  induction l with
  | nil => simp [List.dropWhile_cons, hx]
  | cons a l ih =>
    have ha := hl a (List.mem_cons_self _ _)
    simp only [List.cons_append, List.dropWhile_cons, ha]
    simp only [if_true]
    exact ih fun c hc => hl c (List.mem_cons_of_mem _ hc)

/-- The pattern matcher recognises a variable occurrence sitting at the
head of the input. -/
theorem matchVarAt_at_var (name suffix : List Char) (hname : name ≠ [])
    (hbr : TansuEnv.rbrace ∉ name) :
    TansuEnv.matchVarAt (TansuEnv.dollar :: TansuEnv.lbrace ::
      (name ++ TansuEnv.rbrace :: suffix)) = some (name, suffix) := by
  obtain ⟨n0, ntl, rfl⟩ := List.exists_cons_of_ne_nil hname
  have htake : List.takeWhile (fun x => x ≠ TansuEnv.rbrace)
      ((n0 :: ntl) ++ TansuEnv.rbrace :: suffix) = n0 :: ntl :=
    takeWhile_before_stop _ (n0 :: ntl) suffix TansuEnv.rbrace
      (fun c hc => decide_eq_true fun he => hbr (he ▸ hc))
      (decide_eq_false fun he => he rfl)
  have hdrop : List.dropWhile (fun x => x ≠ TansuEnv.rbrace)
      ((n0 :: ntl) ++ TansuEnv.rbrace :: suffix) =
        TansuEnv.rbrace :: suffix :=
    dropWhile_before_stop _ (n0 :: ntl) suffix TansuEnv.rbrace
      (fun c hc => decide_eq_true fun he => hbr (he ▸ hc))
      (decide_eq_false fun he => he rfl)
  simp only [TansuEnv.matchVarAt, htake, hdrop]
  simp

/-- The leftmost match after a dollar-free prefix is the variable
occurrence sitting right after that prefix. -/
theorem findVar_past_clean (pre name suffix : List Char)
    (hpre : TansuEnv.dollar ∉ pre) (hname : name ≠ [])
    (hbr : TansuEnv.rbrace ∉ name) :
    TansuEnv.findVar (pre ++ (TansuEnv.dollar :: TansuEnv.lbrace ::
        (name ++ TansuEnv.rbrace :: suffix))) =
      some (pre, name, suffix) := by
  induction pre with
  | nil =>
    rw [List.nil_append, TansuEnv.findVar,
      matchVarAt_at_var name suffix hname hbr]
  | cons c p ih =>
    have hc : c ≠ TansuEnv.dollar :=
      fun he => hpre (he ▸ List.mem_cons_self _ _)
    have hp : TansuEnv.dollar ∉ p :=
      fun hm => hpre (List.mem_cons_of_mem _ hm)
    rw [List.cons_append, findVar_cons_nondollar c _ hc, ih hp]
    rfl

/-- C8 amended: `VarRep::replace` resolves the first (leftmost)
occurrence of `${NAME}` — substituting the environment value of `NAME`,
or the empty string when `NAME` is unbound — and leaves the rest of the
string, later occurrences included, verbatim; `EnvVarExp::from_str`
parses the result of this single replacement. -/
theorem var_replace_resolves_first (env : List (List Char × List Char))
    (pre name suffix : List Char) (hpre : TansuEnv.dollar ∉ pre)
    (hname : name ≠ []) (hbr : TansuEnv.rbrace ∉ name) :
    TansuEnv.varRepReplace env
        (pre ++ (TansuEnv.dollar :: TansuEnv.lbrace ::
          (name ++ TansuEnv.rbrace :: suffix))) =
      pre ++ (TansuEnv.lookupEnv env name).getD [] ++ suffix ∧
    ∀ (α : Type) (parse : List Char → Option α),
      TansuEnv.envVarExpFromStr parse env
          (pre ++ (TansuEnv.dollar :: TansuEnv.lbrace ::
            (name ++ TansuEnv.rbrace :: suffix))) =
        parse (pre ++ (TansuEnv.lookupEnv env name).getD [] ++ suffix) := by
  have h := findVar_past_clean pre name suffix hpre hname hbr
  constructor
  · unfold TansuEnv.varRepReplace
    rw [h]
  · intro α parse
    unfold TansuEnv.envVarExpFromStr TansuEnv.varRepReplace
    rw [h]

/-- Witness: resolving `p${A}s` under the binding `A = x` yields `pxs`. -/
theorem var_replace_resolves_first_witness :
    TansuEnv.dollar ∉ (['p'] : List Char) ∧
    (['A'] : List Char) ≠ [] ∧
    TansuEnv.rbrace ∉ (['A'] : List Char) ∧
    (TansuEnv.varRepReplace TansuEnv.exEnv
        (['p'] ++ (TansuEnv.dollar :: TansuEnv.lbrace ::
          (['A'] ++ TansuEnv.rbrace :: ['s']))) =
      ['p'] ++ (TansuEnv.lookupEnv TansuEnv.exEnv ['A']).getD [] ++ ['s'] ∧
    ∀ (α : Type) (parse : List Char → Option α),
      TansuEnv.envVarExpFromStr parse TansuEnv.exEnv
          (['p'] ++ (TansuEnv.dollar :: TansuEnv.lbrace ::
            (['A'] ++ TansuEnv.rbrace :: ['s']))) =
        parse (['p'] ++ (TansuEnv.lookupEnv TansuEnv.exEnv ['A']).getD [] ++
          ['s'])) :=
  ⟨by decide, by decide, by decide,
    var_replace_resolves_first TansuEnv.exEnv ['p'] ['A'] ['s']
      (by decide) (by decide) (by decide)⟩
